import Mathlib

/-!
Verification of the mixed XOR container engine and C++ wrapper of a
Roaring-bitmap library (files `src/containers/mixed_xor.c`, `cpp/roaring.hh`).

Containers hold 16-bit offsets in one of three representations:
sorted arrays (`List Nat`), dense bitmaps (`Finset Nat` of set bit positions
plus a cached cardinality that may be the UNKNOWN marker `-1`), and
run-length encodings (`List (Nat × Nat)` of `(start, length_minus_one)`).
Functions from `mixed_xor.c` are translated directly; primitives that live
in source files outside this slice (bit utilities, run smart appends,
representation conversions, the top-level bitmap API) are modelled from the
specification and marked as such in their doc comments.
-/

namespace CRoaring

/-- Threshold below which an array representation is preferred (`DEFAULT_MAX_SIZE`). -/
def DEFAULT_MAX_SIZE : Nat := 4096

/-- Type tag of bitset containers (`BITSET_CONTAINER_TYPE`). -/
def BITSET_CONTAINER_TYPE : Nat := 1

/-- Type tag of array containers (`ARRAY_CONTAINER_TYPE`). -/
def ARRAY_CONTAINER_TYPE : Nat := 2

/-- Type tag of run containers (`RUN_CONTAINER_TYPE`). -/
def RUN_CONTAINER_TYPE : Nat := 3

/-- Marker stored in a bitset container whose cardinality has not been computed. -/
def BITSET_UNKNOWN_CARDINALITY : Int := -1

/-- A run `(value, length_minus_one)` denoting the interval `[value, value+length]`. -/
abbrev Rle := Nat × Nat

/-- A bitset container: the set of set bit positions plus the cached cardinality
field, which is accurate or the UNKNOWN marker. -/
structure BitsetC where
  bits : Finset Nat
  cardinality : Int
deriving DecidableEq

/-- A container value together with its representation. -/
inductive Container where
  | array (a : List Nat)
  | bitset (b : BitsetC)
  | run (r : List Rle)
deriving DecidableEq

/-- Set of offsets denoted by one run. -/
def rleSet (p : Rle) : Finset Nat := Finset.Icc p.1 (p.1 + p.2)

/-- Set of offsets denoted by a run sequence. -/
def runSet : List Rle → Finset Nat
  | [] => ∅
  | p :: ps => rleSet p ∪ runSet ps

theorem mem_runSet {x : Nat} : ∀ {l : List Rle}, x ∈ runSet l ↔ ∃ p ∈ l, p.1 ≤ x ∧ x ≤ p.1 + p.2 := by
  intro l
  induction l with
  | nil => simp [runSet]
  | cons p ps ih =>
      simp [runSet, rleSet, Finset.mem_union, Finset.mem_Icc, ih]

/-- Expanded cardinality of a run sequence (`run_container_cardinality`). -/
def runCardinality (l : List Rle) : Nat := (l.map (fun p => p.2 + 1)).sum

/-- Validity of an array container: strictly increasing offsets below 2^16. -/
def ArrayValid (a : List Nat) : Prop :=
  a.Pairwise (· < ·) ∧ ∀ x ∈ a, x < 65536

/-- Validity of a run container: runs strictly ordered and non-touching,
ending below 2^16. -/
def RunValid (l : List Rle) : Prop :=
  l.Pairwise (fun p q => p.1 + p.2 + 1 < q.1) ∧ ∀ p ∈ l, p.1 + p.2 < 65536

instance (a : List Nat) : Decidable (ArrayValid a) :=
  inferInstanceAs (Decidable (a.Pairwise (· < ·) ∧ ∀ x ∈ a, x < 65536))

instance (l : List Rle) : Decidable (RunValid l) :=
  inferInstanceAs (Decidable (l.Pairwise (fun (p q : Rle) => p.1 + p.2 + 1 < q.1) ∧
    ∀ p ∈ l, p.1 + p.2 < 65536))

/-- Validity of a bitset container: bits below 2^16 and an accurate cache. -/
def BitsetValid (b : BitsetC) : Prop :=
  (∀ x ∈ b.bits, x < 65536) ∧ b.cardinality = (b.bits.card : Int)

/-- Set of offsets denoted by a container. -/
def containerElems : Container → Finset Nat
  | Container.array a => a.toFinset
  | Container.bitset b => b.bits
  | Container.run r => runSet r

/-- Tag describing the actual representation of a container value. -/
def tagOf : Container → Nat
  | Container.array _ => ARRAY_CONTAINER_TYPE
  | Container.bitset _ => BITSET_CONTAINER_TYPE
  | Container.run _ => RUN_CONTAINER_TYPE

/-- Modelled from the spec: the bit utility `bitset_flip_list` flips one bit
per listed offset (missing L0 layer, `bitset_util.h`). -/
def flipBit (s : Finset Nat) (x : Nat) : Finset Nat :=
  if x ∈ s then s.erase x else insert x s

/-- Modelled from the spec: `bitset_flip_list` / `bitset_flip_list_withcard`
flip every listed position in a bitmap word array. -/
def flipList (s : Finset Nat) (l : List Nat) : Finset Nat :=
  l.foldl flipBit s

/-- Modelled from the spec: `bitset_flip_range` flips all bits in `[lo, hi)`. -/
def flipRange (s : Finset Nat) (lo hi : Nat) : Finset Nat :=
  symmDiff s (Finset.Ico lo hi)

theorem flipBit_eq_symmDiff (s : Finset Nat) (x : Nat) :
    flipBit s x = symmDiff s {x} := by
  ext y
  by_cases hy : y = x <;>
    simp [flipBit, Finset.mem_symmDiff, hy] <;>
    by_cases hx : x ∈ s <;> simp [hx, hy]

theorem flipList_eq_symmDiff (s : Finset Nat) :
    ∀ l : List Nat, l.Nodup → flipList s l = symmDiff s l.toFinset := by
  intro l
  induction l generalizing s with
  | nil => intro _; simp [flipList]; exact (symmDiff_bot s).symm
  | cons x xs ih =>
      intro hnd
      have hx : x ∉ xs := (List.nodup_cons.mp hnd).1
      have hxs : xs.Nodup := (List.nodup_cons.mp hnd).2
      have h1 : flipList s (x :: xs) = flipList (flipBit s x) xs := rfl
      rw [h1, ih _ hxs, flipBit_eq_symmDiff, symmDiff_assoc]
      congr 1
      ext y
      by_cases hy : y = x <;> simp [Finset.mem_symmDiff, hy, hx]

/-- Modelled from the spec: `run_container_smart_append_exclusive` appends a
run to the tail of a run container under XOR semantics — overlapping regions
cancel, a touching run extends the tail, and an incoming run that starts
inside the tail trims or splits it (missing L1 helper from `run.h`).
The run sequence is kept in reverse (most recently appended run first). -/
def smartAppendXRev : List Rle → Nat → Nat → List Rle
  | [], s, l => [(s, l)]
  | (v, len) :: rest, s, l =>
      if v + len + 1 < s then (s, l) :: (v, len) :: rest
      else if s = v + len + 1 then (v, len + l + 1) :: rest
      else if s = v then
        if s + l + 1 < v + len + 1 then (s + l + 1, (v + len + 1) - (s + l + 1) - 1) :: rest
        else if v + len + 1 < s + l + 1 then (v + len + 1, (s + l + 1) - (v + len + 1) - 1) :: rest
        else rest
      else
        if s + l + 1 < v + len + 1 then
          (s + l + 1, (v + len + 1) - (s + l + 1) - 1) :: (v, s - v - 1) :: rest
        else if v + len + 1 < s + l + 1 then
          (v + len + 1, (s + l + 1) - (v + len + 1) - 1) :: (v, s - v - 1) :: rest
        else (v, s - v - 1) :: rest

/-- Exclusive end of the most recently appended run of a reversed run list. -/
def accEnd : List Rle → Nat
  | [] => 0
  | p :: _ => p.1 + p.2 + 1

/-- Validity of a reversed run list: later entries end strictly before the
start of the runs appended after them. -/
def AccValid (l : List Rle) : Prop :=
  l.Pairwise (fun q p => p.1 + p.2 + 1 < q.1)

theorem mem_runSet_cons {x a b : Nat} {t : List Rle} :
    x ∈ runSet ((a, b) :: t) ↔ (a ≤ x ∧ x ≤ a + b) ∨ x ∈ runSet t := by
  simp [runSet, rleSet]

theorem runSet_lt_of_accValid {v len : Nat} {rest : List Rle}
    (h : AccValid ((v, len) :: rest)) : ∀ x ∈ runSet rest, x < v := by
  intro x hx
  rw [mem_runSet] at hx
  obtain ⟨p, hp, hle, hge⟩ := hx
  have hpv := (List.pairwise_cons.mp h).1 p hp
  omega

set_option maxHeartbeats 2000000 in
theorem smartAppendXRev_spec (acc : List Rle) (s l : Nat)
    (h1 : AccValid acc)
    (hhd : ∀ v len rest, acc = (v, len) :: rest → v ≤ s) :
    AccValid (smartAppendXRev acc s l) ∧
    runSet (smartAppendXRev acc s l) = symmDiff (runSet acc) (Finset.Icc s (s + l)) ∧
    (∀ v2 len2 rest2, smartAppendXRev acc s l = (v2, len2) :: rest2 →
        v2 ≤ max s (min (accEnd acc) (s + l + 1))) ∧
    accEnd (smartAppendXRev acc s l) ≤ max (accEnd acc) (s + l + 1) := by
  match acc with
  | [] =>
      refine ⟨?_, ?_, ?_, ?_⟩
      · simp [smartAppendXRev, AccValid]
      · ext x
        simp only [smartAppendXRev, runSet, rleSet, Finset.mem_union,
          Finset.mem_Icc, Finset.mem_symmDiff, Finset.not_mem_empty]
        tauto
      · intro v2 len2 rest2 heq
        simp only [smartAppendXRev, List.cons.injEq, Prod.mk.injEq] at heq
        simp [accEnd]
        omega
      · simp [smartAppendXRev, accEnd]
  | (v, len) :: rest =>
      have hv : v ≤ s := hhd v len rest rfl
      have hrest : rest.Pairwise (fun q p => p.1 + p.2 + 1 < q.1) :=
        (List.pairwise_cons.mp h1).2
      have hvrest : ∀ p ∈ rest, p.1 + p.2 + 1 < v := (List.pairwise_cons.mp h1).1
      have hxlt : ∀ x ∈ runSet rest, x < v := runSet_lt_of_accValid h1
      simp only [smartAppendXRev]
      split_ifs with hb1 hb2 hb3 hb4 hb5 hb6 hb7
      -- fresh append: s starts past the old end
      · refine ⟨?_, ?_, ?_, ?_⟩
        · refine List.Pairwise.cons ?_ h1
          intro p hp
          rcases List.mem_cons.mp hp with h | h
          · subst h; omega
          · have := hvrest p h; omega
        · ext x
          by_cases hr : x ∈ runSet rest <;>
            [have hxv := hxlt x hr; skip] <;>
            simp only [mem_runSet_cons, Finset.mem_symmDiff, Finset.mem_Icc, hr,
              or_true, true_or, and_true, true_and, false_or, or_false, and_false,
              false_and, not_true, not_false_iff, iff_true, true_iff, iff_false,
              false_iff] <;> omega
        · intro v2 len2 rest2 heq
          simp only [List.cons.injEq, Prod.mk.injEq] at heq
          simp [accEnd]
          omega
        · simp [accEnd]
      -- merge: s touches the old end, extend the tail run
      · refine ⟨?_, ?_, ?_, ?_⟩
        · refine List.Pairwise.cons ?_ hrest
          intro p hp; have := hvrest p hp; omega
        · ext x
          by_cases hr : x ∈ runSet rest <;>
            [have hxv := hxlt x hr; skip] <;>
            simp only [mem_runSet_cons, Finset.mem_symmDiff, Finset.mem_Icc, hr,
              or_true, true_or, and_true, true_and, false_or, or_false, and_false,
              false_and, not_true, not_false_iff, iff_true, true_iff, iff_false,
              false_iff] <;> omega
        · intro v2 len2 rest2 heq
          simp only [List.cons.injEq, Prod.mk.injEq] at heq
          simp [accEnd]
          omega
        · simp [accEnd]; omega
      -- puncture at the tail start, incoming run shorter: kept high part
      · refine ⟨?_, ?_, ?_, ?_⟩
        · refine List.Pairwise.cons ?_ hrest
          intro p hp; have := hvrest p hp; omega
        · ext x
          by_cases hr : x ∈ runSet rest <;>
            [have hxv := hxlt x hr; skip] <;>
            simp only [mem_runSet_cons, Finset.mem_symmDiff, Finset.mem_Icc, hr,
              or_true, true_or, and_true, true_and, false_or, or_false, and_false,
              false_and, not_true, not_false_iff, iff_true, true_iff, iff_false,
              false_iff] <;> omega
        · intro v2 len2 rest2 heq
          simp only [List.cons.injEq, Prod.mk.injEq] at heq
          simp [accEnd]
          omega
        · simp [accEnd]; omega
      -- puncture at the tail start, incoming run longer: kept extension
      · refine ⟨?_, ?_, ?_, ?_⟩
        · refine List.Pairwise.cons ?_ hrest
          intro p hp; have := hvrest p hp; omega
        · ext x
          by_cases hr : x ∈ runSet rest <;>
            [have hxv := hxlt x hr; skip] <;>
            simp only [mem_runSet_cons, Finset.mem_symmDiff, Finset.mem_Icc, hr,
              or_true, true_or, and_true, true_and, false_or, or_false, and_false,
              false_and, not_true, not_false_iff, iff_true, true_iff, iff_false,
              false_iff] <;> omega
        · intro v2 len2 rest2 heq
          simp only [List.cons.injEq, Prod.mk.injEq] at heq
          simp [accEnd]
          omega
        · simp [accEnd]; omega
      -- exact cancellation: the tail run is removed
      · refine ⟨hrest, ?_, ?_, ?_⟩
        · ext x
          by_cases hr : x ∈ runSet rest <;>
            [have hxv := hxlt x hr; skip] <;>
            simp only [mem_runSet_cons, Finset.mem_symmDiff, Finset.mem_Icc, hr,
              or_true, true_or, and_true, true_and, false_or, or_false, and_false,
              false_and, not_true, not_false_iff, iff_true, true_iff, iff_false,
              false_iff] <;> omega
        · intro v2 len2 rest2 heq
          have hmem : (v2, len2) ∈ rest := heq ▸ List.mem_cons_self _ _
          have := hvrest _ hmem
          simp only [accEnd]
          omega
        · match rest, hvrest with
          | [], _ => simp [accEnd]
          | p :: rest1, hvrest =>
              have := hvrest p (List.mem_cons_self _ _)
              simp only [accEnd]
              omega
      -- trim and split: incoming run inside the tail, shorter
      · refine ⟨?_, ?_, ?_, ?_⟩
        · refine List.Pairwise.cons ?_ (List.Pairwise.cons ?_ hrest)
          · intro p hp
            rcases List.mem_cons.mp hp with h | h
            · subst h; simp; omega
            · have := hvrest p h; omega
          · intro p hp; have := hvrest p hp; omega
        · ext x
          by_cases hr : x ∈ runSet rest <;>
            [have hxv := hxlt x hr; skip] <;>
            simp only [mem_runSet_cons, Finset.mem_symmDiff, Finset.mem_Icc, hr,
              or_true, true_or, and_true, true_and, false_or, or_false, and_false,
              false_and, not_true, not_false_iff, iff_true, true_iff, iff_false,
              false_iff] <;> omega
        · intro v2 len2 rest2 heq
          simp only [List.cons.injEq, Prod.mk.injEq] at heq
          simp [accEnd]
          omega
        · simp [accEnd]; omega
      -- trim and split: incoming run reaches past the tail end
      · refine ⟨?_, ?_, ?_, ?_⟩
        · refine List.Pairwise.cons ?_ (List.Pairwise.cons ?_ hrest)
          · intro p hp
            rcases List.mem_cons.mp hp with h | h
            · subst h; simp; omega
            · have := hvrest p h; omega
          · intro p hp; have := hvrest p hp; omega
        · ext x
          by_cases hr : x ∈ runSet rest <;>
            [have hxv := hxlt x hr; skip] <;>
            simp only [mem_runSet_cons, Finset.mem_symmDiff, Finset.mem_Icc, hr,
              or_true, true_or, and_true, true_and, false_or, or_false, and_false,
              false_and, not_true, not_false_iff, iff_true, true_iff, iff_false,
              false_iff] <;> omega
        · intro v2 len2 rest2 heq
          simp only [List.cons.injEq, Prod.mk.injEq] at heq
          simp [accEnd]
          omega
        · simp [accEnd]; omega
      -- trim only: incoming run ends exactly at the tail end
      · refine ⟨?_, ?_, ?_, ?_⟩
        · refine List.Pairwise.cons ?_ hrest
          intro p hp; have := hvrest p hp; omega
        · ext x
          by_cases hr : x ∈ runSet rest <;>
            [have hxv := hxlt x hr; skip] <;>
            simp only [mem_runSet_cons, Finset.mem_symmDiff, Finset.mem_Icc, hr,
              or_true, true_or, and_true, true_and, false_or, or_false, and_false,
              false_and, not_true, not_false_iff, iff_true, true_iff, iff_false,
              false_iff] <;> omega
        · intro v2 len2 rest2 heq
          simp only [List.cons.injEq, Prod.mk.injEq] at heq
          simp [accEnd]
          omega
        · simp [accEnd]; omega

/-- Modelled from the spec: the sorted-merge loop shared by the run/run and
array/run XOR routines; each popped item is fed to smart-exclusive-append.
It mirrors the merges of `array_run_container_lazy_xor` and
`run_container_xor`: the first source is popped when its head starts no
later than the head of the second. -/
def xorMergeLoop : Nat → List Rle → List Rle → List Rle → List Rle
  | _, [], [], acc => acc
  | 0, _, _, acc => acc
  | n + 1, [], q :: qs, acc => xorMergeLoop n [] qs (smartAppendXRev acc q.1 q.2)
  | n + 1, p :: ps, [], acc => xorMergeLoop n ps [] (smartAppendXRev acc p.1 p.2)
  | n + 1, p :: ps, q :: qs, acc =>
      if p.1 ≤ q.1 then xorMergeLoop n ps (q :: qs) (smartAppendXRev acc p.1 p.2)
      else xorMergeLoop n (p :: ps) qs (smartAppendXRev acc q.1 q.2)

/-- Ordering of a source fed to the XOR merge: each run ends no later than
the start of the next (touching is allowed, as for adjacent array values). -/
def RunsOrdered (l : List Rle) : Prop :=
  l.Pairwise (fun p q => p.1 + p.2 + 1 ≤ q.1)

instance (l : List Rle) : Decidable (RunsOrdered l) :=
  inferInstanceAs (Decidable (l.Pairwise (fun (p q : Rle) => p.1 + p.2 + 1 ≤ q.1)))

theorem symmDiff_empty_left (t : Finset Nat) : symmDiff ∅ t = t := by
  simpa using bot_symmDiff t

theorem symmDiff_empty_right (t : Finset Nat) : symmDiff t ∅ = t := by
  simpa using symmDiff_bot t

theorem disjoint_rleSet_runSet {p : Rle} {ps : List Rle}
    (h : RunsOrdered (p :: ps)) : Disjoint (rleSet p) (runSet ps) := by
  rw [Finset.disjoint_left]
  intro x hx hx2
  rw [mem_runSet] at hx2
  obtain ⟨q, hq, hq1, hq2⟩ := hx2
  have h3 := (List.pairwise_cons.mp h).1 q hq
  simp only [rleSet, Finset.mem_Icc] at hx
  omega

theorem runSet_cons_symmDiff {a b : Nat} {ps : List Rle}
    (h : RunsOrdered ((a, b) :: ps)) :
    runSet ((a, b) :: ps) = symmDiff (Finset.Icc a (a + b)) (runSet ps) := by
  show runSet ((a, b) :: ps) = symmDiff (rleSet (a, b)) (runSet ps)
  rw [Disjoint.symmDiff_eq_sup (disjoint_rleSet_runSet h)]
  rfl

set_option maxHeartbeats 2000000 in
theorem xorMergeLoop_spec : ∀ (n : Nat) (rs1 rs2 acc : List Rle) (b1 b2 : Nat),
    rs1.length + rs2.length ≤ n →
    RunsOrdered rs1 → RunsOrdered rs2 → AccValid acc →
    (∀ q ∈ rs1, b1 ≤ q.1) → (∀ q ∈ rs2, b2 ≤ q.1) →
    (rs1 ≠ [] → rs2 ≠ [] → accEnd acc ≤ max b1 b2) →
    (∀ v len rest, acc = (v, len) :: rest →
        (∀ q ∈ rs1, v ≤ q.1) ∧ (∀ q ∈ rs2, v ≤ q.1)) →
    AccValid (xorMergeLoop n rs1 rs2 acc) ∧
    runSet (xorMergeLoop n rs1 rs2 acc)
      = symmDiff (runSet acc) (symmDiff (runSet rs1) (runSet rs2)) := by
  intro n
  induction n with
  | zero =>
      intro rs1 rs2 acc b1 b2 hlen _ _ hacc _ _ _ _
      rcases rs1 with _ | ⟨p, ps⟩
      · rcases rs2 with _ | ⟨q, qs⟩
        · simp only [xorMergeLoop, runSet]
          refine ⟨hacc, ?_⟩
          rw [symmDiff_empty_left, symmDiff_empty_right]
        · simp at hlen
      · simp at hlen
  | succ n IH =>
      intro rs1 rs2 acc b1 b2 hlen hord1 hord2 hacc hb1 hb2 hEnd hhd
      rcases rs1 with _ | ⟨⟨a, b⟩, ps⟩
      · rcases rs2 with _ | ⟨⟨c, d⟩, qs⟩
        · simp only [xorMergeLoop, runSet]
          refine ⟨hacc, ?_⟩
          rw [symmDiff_empty_left, symmDiff_empty_right]
        · -- drain the second source
          have hhd2 : ∀ v len rest, acc = (v, len) :: rest → v ≤ c := by
            intro v len rest h
            exact (hhd v len rest h).2 (c, d) (List.mem_cons_self _ _)
          obtain ⟨hA, hS, hH, hE⟩ := smartAppendXRev_spec acc c d hacc hhd2
          have hord2t : RunsOrdered qs := (List.pairwise_cons.mp hord2).2
          have hqqs : ∀ r ∈ qs, c + d + 1 ≤ r.1 := (List.pairwise_cons.mp hord2).1
          have hrec := IH [] qs (smartAppendXRev acc c d) 0 (max b2 (c + d + 1))
            (by simp only [List.length_nil, List.length_cons] at hlen ⊢; omega)
            List.Pairwise.nil hord2t hA
            (by intro r hr; exact absurd hr (List.not_mem_nil _))
            (by intro r hr
                have h1 := hqqs r hr
                have h2 := hb2 r (List.mem_cons_of_mem _ hr)
                omega)
            (by intro h _; exact absurd rfl h)
            (by intro v len rest heq
                refine ⟨fun r hr => absurd hr (List.not_mem_nil _), fun r hr => ?_⟩
                have hv := hH v len rest heq
                have h1 := hqqs r hr
                omega)
          simp only [xorMergeLoop]
          refine ⟨hrec.1, ?_⟩
          rw [hrec.2, hS, runSet_cons_symmDiff hord2]
          simp only [runSet]
          rw [symmDiff_empty_left, symmDiff_empty_left, symmDiff_assoc]
      · rcases rs2 with _ | ⟨⟨c, d⟩, qs⟩
        · -- drain the first source
          have hhd2 : ∀ v len rest, acc = (v, len) :: rest → v ≤ a := by
            intro v len rest h
            exact (hhd v len rest h).1 (a, b) (List.mem_cons_self _ _)
          obtain ⟨hA, hS, hH, hE⟩ := smartAppendXRev_spec acc a b hacc hhd2
          have hord1t : RunsOrdered ps := (List.pairwise_cons.mp hord1).2
          have hpps : ∀ r ∈ ps, a + b + 1 ≤ r.1 := (List.pairwise_cons.mp hord1).1
          have hrec := IH ps [] (smartAppendXRev acc a b) (max b1 (a + b + 1)) 0
            (by simp only [List.length_nil, List.length_cons] at hlen ⊢; omega)
            hord1t List.Pairwise.nil hA
            (by intro r hr
                have h1 := hpps r hr
                have h2 := hb1 r (List.mem_cons_of_mem _ hr)
                omega)
            (by intro r hr; exact absurd hr (List.not_mem_nil _))
            (by intro _ h; exact absurd rfl h)
            (by intro v len rest heq
                refine ⟨fun r hr => ?_, fun r hr => absurd hr (List.not_mem_nil _)⟩
                have hv := hH v len rest heq
                have h1 := hpps r hr
                omega)
          simp only [xorMergeLoop]
          refine ⟨hrec.1, ?_⟩
          rw [hrec.2, hS, runSet_cons_symmDiff hord1]
          simp only [runSet]
          rw [symmDiff_empty_right, symmDiff_empty_right, symmDiff_assoc]
        · -- both sources active
          have hb1a : b1 ≤ a := hb1 (a, b) (List.mem_cons_self _ _)
          have hb2c : b2 ≤ c := hb2 (c, d) (List.mem_cons_self _ _)
          have hord1t : RunsOrdered ps := (List.pairwise_cons.mp hord1).2
          have hpps : ∀ r ∈ ps, a + b + 1 ≤ r.1 := (List.pairwise_cons.mp hord1).1
          have hord2t : RunsOrdered qs := (List.pairwise_cons.mp hord2).2
          have hqqs : ∀ r ∈ qs, c + d + 1 ≤ r.1 := (List.pairwise_cons.mp hord2).1
          have hEnd2 : accEnd acc ≤ max b1 b2 := hEnd (by simp) (by simp)
          by_cases hpq : a ≤ c
          · -- pop the first source
            have hhd2 : ∀ v len rest, acc = (v, len) :: rest → v ≤ a := by
              intro v len rest h
              exact (hhd v len rest h).1 (a, b) (List.mem_cons_self _ _)
            obtain ⟨hA, hS, hH, hE⟩ := smartAppendXRev_spec acc a b hacc hhd2
            have hrec := IH ps ((c, d) :: qs) (smartAppendXRev acc a b)
              (max b1 (a + b + 1)) b2
              (by simp only [List.length_cons] at hlen ⊢; omega)
              hord1t hord2 hA
              (by intro r hr
                  have h1 := hpps r hr
                  have h2 := hb1 r (List.mem_cons_of_mem _ hr)
                  omega)
              hb2
              (by intro _ _; omega)
              (by intro v len rest heq
                  have hv := hH v len rest heq
                  refine ⟨fun r hr => ?_, fun r hr => ?_⟩
                  · have h1 := hpps r hr
                    omega
                  · rcases List.mem_cons.mp hr with h | h
                    · subst h; omega
                    · have h1 := hqqs r h
                      omega)
            simp only [xorMergeLoop]
            rw [if_pos hpq]
            refine ⟨hrec.1, ?_⟩
            rw [hrec.2, hS, symmDiff_assoc,
              ← symmDiff_assoc (Finset.Icc a (a + b)) (runSet ps)
                (runSet ((c, d) :: qs)),
              ← runSet_cons_symmDiff hord1]
          · -- pop the second source
            have hca : c < a := Nat.lt_of_not_le hpq
            have hhd2 : ∀ v len rest, acc = (v, len) :: rest → v ≤ c := by
              intro v len rest h
              exact (hhd v len rest h).2 (c, d) (List.mem_cons_self _ _)
            obtain ⟨hA, hS, hH, hE⟩ := smartAppendXRev_spec acc c d hacc hhd2
            have hrec := IH ((a, b) :: ps) qs (smartAppendXRev acc c d)
              b1 (max b2 (c + d + 1))
              (by simp only [List.length_cons] at hlen ⊢; omega)
              hord1 hord2t hA
              hb1
              (by intro r hr
                  have h1 := hqqs r hr
                  have h2 := hb2 r (List.mem_cons_of_mem _ hr)
                  omega)
              (by intro _ _; omega)
              (by intro v len rest heq
                  have hv := hH v len rest heq
                  refine ⟨fun r hr => ?_, fun r hr => ?_⟩
                  · rcases List.mem_cons.mp hr with h | h
                    · subst h; omega
                    · have h1 := hpps r h
                      omega
                  · have h1 := hqqs r hr
                    omega)
            simp only [xorMergeLoop]
            rw [if_neg hpq]
            refine ⟨hrec.1, ?_⟩
            rw [hrec.2, hS, runSet_cons_symmDiff hord2, symmDiff_assoc,
              symmDiff_left_comm (Finset.Icc c (c + d)) (runSet ((a, b) :: ps))
                (runSet qs)]

/-- Correctness of the XOR merge started from an empty accumulator. -/
theorem xorMergeLoop_correct (rs1 rs2 : List Rle)
    (h1 : RunsOrdered rs1) (h2 : RunsOrdered rs2) :
    AccValid (xorMergeLoop (rs1.length + rs2.length) rs1 rs2 []) ∧
    runSet (xorMergeLoop (rs1.length + rs2.length) rs1 rs2 [])
      = symmDiff (runSet rs1) (runSet rs2) := by
  have h := xorMergeLoop_spec (rs1.length + rs2.length) rs1 rs2 [] 0 0 le_rfl
    h1 h2 List.Pairwise.nil
    (fun q _ => Nat.zero_le _) (fun q _ => Nat.zero_le _)
    (fun _ _ => by simp [accEnd])
    (fun v len rest heq => nomatch heq)
  refine ⟨h.1, ?_⟩
  rw [h.2]
  simp only [runSet]
  rw [symmDiff_empty_left]

theorem runSet_reverse (l : List Rle) : runSet l.reverse = runSet l := by
  ext x
  simp [mem_runSet]

/-- Modelled from the spec: `array_container_from_bitset` extracts the sorted
offsets of a bitmap container. -/
def arrayFromBitset (s : Finset Nat) : List Nat := s.sort (· ≤ ·)

/-- Modelled from the spec: `bitset_container_from_array` sets one bit per
array element and installs the array cardinality. -/
def bitsetFromArray (a : List Nat) : BitsetC :=
  { bits := a.toFinset, cardinality := (a.length : Int) }

/-- Offsets covered by one run, in increasing order. -/
def rangeClosed (v l : Nat) : List Nat := (List.range (l + 1)).map (v + ·)

/-- Modelled from the spec: `array_container_from_run` expands the runs into
an array of offsets. -/
def arrayFromRun : List Rle → List Nat
  | [] => []
  | p :: ps => rangeClosed p.1 p.2 ++ arrayFromRun ps

/-- Modelled from the spec: `bitset_container_from_run` sets the bits of every
run and installs the expanded cardinality. -/
def bitsetFromRun (r : List Rle) : BitsetC :=
  { bits := runSet r, cardinality := (runCardinality r : Int) }

/-- Fuelled two-pointer merge computing the symmetric difference of two
sorted arrays (modelled from the spec: `array_container_xor` walks both
arrays emitting offsets present in exactly one). -/
def arrayXorListF : Nat → List Nat → List Nat → List Nat
  | _, [], ys => ys
  | _, x :: xs, [] => x :: xs
  | 0, _ :: _, _ :: _ => []
  | n + 1, x :: xs, y :: ys =>
      if x < y then x :: arrayXorListF n xs (y :: ys)
      else if y < x then y :: arrayXorListF n (x :: xs) ys
      else arrayXorListF n xs ys

/-- Modelled from the spec: `array_container_xor`. -/
def arrayXorList (a b : List Nat) : List Nat :=
  arrayXorListF (a.length + b.length) a b

/-- Footprint in bytes of a container representation, as used by the fit
step: two bytes per array entry, two 16-bit entries per run plus the run
count, 1024 words of 64 bits for a bitmap. -/
def footprint : Container → Nat
  | Container.array a => 2 * a.length
  | Container.bitset _ => 8192
  | Container.run r => 2 + 4 * r.length

/-- Modelled from the spec: `convert_run_to_efficient_container_and_free`
rewrites a freshly produced run container into the smallest of the run,
array and bitmap representations (missing `convert.c`). -/
def convert_run_to_efficient_container_and_free (r : List Rle) : Container × Nat :=
  if 2 + 4 * r.length ≤ min 8192 (2 * runCardinality r) then
    (Container.run r, RUN_CONTAINER_TYPE)
  else if runCardinality r ≤ DEFAULT_MAX_SIZE then
    (Container.array (arrayFromRun r), ARRAY_CONTAINER_TYPE)
  else
    (Container.bitset (bitsetFromRun r), BITSET_CONTAINER_TYPE)

theorem insert_symmDiff_left (x : Nat) (s t : Finset Nat) (h1 : x ∉ s)
    (h2 : x ∉ t) : symmDiff (insert x s) t = insert x (symmDiff s t) := by
  ext z
  by_cases hz : z = x <;> simp [Finset.mem_symmDiff, hz, h1, h2]

theorem insert_symmDiff_right (x : Nat) (s t : Finset Nat) (h1 : x ∉ s)
    (h2 : x ∉ t) : symmDiff s (insert x t) = insert x (symmDiff s t) := by
  ext z
  by_cases hz : z = x <;> simp [Finset.mem_symmDiff, hz, h1, h2]

theorem insert_symmDiff_cancel (x : Nat) (s t : Finset Nat) (h1 : x ∉ s)
    (h2 : x ∉ t) : symmDiff (insert x s) (insert x t) = symmDiff s t := by
  ext z
  by_cases hz : z = x <;> simp [Finset.mem_symmDiff, hz, h1, h2]

set_option maxHeartbeats 1000000 in
theorem arrayXorListF_spec : ∀ (n : Nat) (a b : List Nat),
    a.length + b.length ≤ n → a.Pairwise (· < ·) → b.Pairwise (· < ·) →
    (arrayXorListF n a b).Pairwise (· < ·) ∧
    (arrayXorListF n a b).toFinset = symmDiff a.toFinset b.toFinset := by
  intro n
  induction n with
  | zero =>
      intro a b hlen ha hb
      rcases a with _ | ⟨x, xs⟩
      · refine ⟨hb, ?_⟩
        simp only [arrayXorListF, List.toFinset_nil]
        rw [symmDiff_empty_left]
      · rcases b with _ | ⟨y, ys⟩
        · refine ⟨ha, ?_⟩
          simp only [arrayXorListF, List.toFinset_nil]
          rw [symmDiff_empty_right]
        · simp at hlen
  | succ n ih =>
      intro a b hlen ha hb
      rcases a with _ | ⟨x, xs⟩
      · refine ⟨hb, ?_⟩
        simp only [arrayXorListF, List.toFinset_nil]
        rw [symmDiff_empty_left]
      · rcases b with _ | ⟨y, ys⟩
        · refine ⟨ha, ?_⟩
          simp only [arrayXorListF, List.toFinset_nil]
          rw [symmDiff_empty_right]
        · have hxxs := (List.pairwise_cons.mp ha).1
          have hxs := (List.pairwise_cons.mp ha).2
          have hyys := (List.pairwise_cons.mp hb).1
          have hys := (List.pairwise_cons.mp hb).2
          have hxnxs : x ∉ xs.toFinset := by
            intro h
            exact absurd (hxxs x (List.mem_toFinset.mp h)) (lt_irrefl x)
          have hynys : y ∉ ys.toFinset := by
            intro h
            exact absurd (hyys y (List.mem_toFinset.mp h)) (lt_irrefl y)
          simp only [arrayXorListF]
          by_cases h1 : x < y
          · rw [if_pos h1]
            have hrec := ih xs (y :: ys)
              (by simp only [List.length_cons] at hlen ⊢; omega) hxs hb
            have hxnb : x ∉ (y :: ys).toFinset := by
              intro h
              rcases List.mem_cons.mp (List.mem_toFinset.mp h) with h2 | h2
              · omega
              · have := hyys x h2; omega
            refine ⟨?_, ?_⟩
            · refine List.Pairwise.cons ?_ hrec.1
              intro z hz
              have hz2 := List.mem_toFinset.mpr hz
              rw [hrec.2, Finset.mem_symmDiff] at hz2
              rcases hz2 with ⟨hz3, _⟩ | ⟨hz3, _⟩
              · exact hxxs z (List.mem_toFinset.mp hz3)
              · rcases List.mem_cons.mp (List.mem_toFinset.mp hz3) with h2 | h2
                · omega
                · have := hyys z h2; omega
            · rw [List.toFinset_cons, hrec.2,
                show ((x :: xs).toFinset : Finset Nat) = insert x xs.toFinset from
                  List.toFinset_cons,
                insert_symmDiff_left x xs.toFinset (y :: ys).toFinset hxnxs hxnb]
          · rw [if_neg h1]
            by_cases h2 : y < x
            · rw [if_pos h2]
              have hrec := ih (x :: xs) ys
                (by simp only [List.length_cons] at hlen ⊢; omega) ha hys
              have hyna : y ∉ (x :: xs).toFinset := by
                intro h
                rcases List.mem_cons.mp (List.mem_toFinset.mp h) with h3 | h3
                · omega
                · have := hxxs y h3; omega
              refine ⟨?_, ?_⟩
              · refine List.Pairwise.cons ?_ hrec.1
                intro z hz
                have hz2 := List.mem_toFinset.mpr hz
                rw [hrec.2, Finset.mem_symmDiff] at hz2
                rcases hz2 with ⟨hz3, _⟩ | ⟨hz3, _⟩
                · rcases List.mem_cons.mp (List.mem_toFinset.mp hz3) with h3 | h3
                  · omega
                  · have := hxxs z h3; omega
                · exact hyys z (List.mem_toFinset.mp hz3)
              · rw [List.toFinset_cons, hrec.2,
                  show ((y :: ys).toFinset : Finset Nat) = insert y ys.toFinset from
                    List.toFinset_cons,
                  insert_symmDiff_right y (x :: xs).toFinset ys.toFinset hyna hynys]
            · rw [if_neg h2]
              have hxy : x = y := by omega
              subst hxy
              have hrec := ih xs ys
                (by simp only [List.length_cons] at hlen ⊢; omega) hxs hys
              refine ⟨hrec.1, ?_⟩
              rw [hrec.2, List.toFinset_cons, List.toFinset_cons,
                insert_symmDiff_cancel x xs.toFinset ys.toFinset hxnxs hynys]

/-- Correctness of `array_container_xor` on sorted inputs. -/
theorem arrayXorList_spec (a b : List Nat) (ha : a.Pairwise (· < ·))
    (hb : b.Pairwise (· < ·)) :
    (arrayXorList a b).Pairwise (· < ·) ∧
    (arrayXorList a b).toFinset = symmDiff a.toFinset b.toFinset :=
  arrayXorListF_spec (a.length + b.length) a b le_rfl ha hb

theorem rangeClosed_toFinset (v l : Nat) :
    (rangeClosed v l).toFinset = Finset.Icc v (v + l) := by
  ext x
  simp only [rangeClosed, List.mem_toFinset, List.mem_map, List.mem_range,
    Finset.mem_Icc]
  constructor
  · rintro ⟨i, hi, rfl⟩; omega
  · intro h; exact ⟨x - v, by omega, by omega⟩

theorem arrayFromRun_toFinset (r : List Rle) :
    (arrayFromRun r).toFinset = runSet r := by
  induction r with
  | nil => rfl
  | cons p ps ih =>
      simp only [arrayFromRun, runSet, List.toFinset_append, ih,
        rangeClosed_toFinset]
      rfl

theorem arrayFromRun_length (r : List Rle) :
    (arrayFromRun r).length = runCardinality r := by
  induction r with
  | nil => rfl
  | cons p ps ih =>
      have ih2 : (arrayFromRun ps).length = runCardinality ps := ih
      simp only [arrayFromRun, List.length_append, rangeClosed, List.length_map,
        List.length_range, runCardinality, List.map_cons, List.sum_cons]
      simp only [runCardinality] at ih2
      omega

theorem arrayFromRun_sorted (r : List Rle)
    (h : r.Pairwise (fun p q => p.1 + p.2 + 1 < q.1)) :
    (arrayFromRun r).Pairwise (· < ·) := by
  induction r with
  | nil => exact List.Pairwise.nil
  | cons p ps ih =>
      have hps := (List.pairwise_cons.mp h).2
      have hpps := (List.pairwise_cons.mp h).1
      simp only [arrayFromRun]
      rw [List.pairwise_append]
      refine ⟨?_, ih hps, ?_⟩
      · rw [rangeClosed, List.pairwise_map]
        exact (List.pairwise_lt_range _).imp (fun h => by omega)
      · intro x hx y hy
        have hx2 : x ≤ p.1 + p.2 := by
          simp only [rangeClosed, List.mem_map, List.mem_range] at hx
          obtain ⟨i, hi, rfl⟩ := hx
          omega
        have hy2 : y ∈ runSet ps := by
          rw [← arrayFromRun_toFinset]
          exact List.mem_toFinset.mpr hy
        rw [mem_runSet] at hy2
        obtain ⟨q, hq, hq1, hq2⟩ := hy2
        have := hpps q hq
        omega

theorem arrayFromBitset_toFinset (s : Finset Nat) :
    (arrayFromBitset s).toFinset = s := by
  simp [arrayFromBitset]

theorem arrayFromBitset_length (s : Finset Nat) :
    (arrayFromBitset s).length = s.card := by
  simp [arrayFromBitset]

/-- The conversion pass preserves the element set. -/
theorem convert_elems (r : List Rle) :
    containerElems (convert_run_to_efficient_container_and_free r).1
      = runSet r := by
  unfold convert_run_to_efficient_container_and_free
  split_ifs with h1 h2
  · rfl
  · simp only [containerElems, arrayFromRun_toFinset]
  · rfl

/-- The conversion pass writes the tag matching the chosen representation. -/
theorem convert_tag (r : List Rle) :
    (convert_run_to_efficient_container_and_free r).2
      = tagOf (convert_run_to_efficient_container_and_free r).1 := by
  unfold convert_run_to_efficient_container_and_free
  split_ifs <;> rfl

/-- The conversion pass picks a representation of minimal footprint among
run, array and bitmap forms of its input. -/
theorem convert_min_footprint (r : List Rle) :
    footprint (convert_run_to_efficient_container_and_free r).1
        ≤ 2 + 4 * r.length ∧
    footprint (convert_run_to_efficient_container_and_free r).1
        ≤ 2 * runCardinality r ∧
    footprint (convert_run_to_efficient_container_and_free r).1 ≤ 8192 := by
  unfold convert_run_to_efficient_container_and_free
  split_ifs with h1 h2 <;>
    simp only [footprint, arrayFromRun_length, DEFAULT_MAX_SIZE] at * <;> omega

/-- The runs flipped one range at a time into a bitmap produce the symmetric
difference with the run set, provided the runs are ordered. -/
theorem foldl_flipRange_eq_symmDiff :
    ∀ (r : List Rle), RunsOrdered r → ∀ (s : Finset Nat),
    r.foldl (fun t p => flipRange t p.1 (p.1 + p.2 + 1)) s
      = symmDiff s (runSet r) := by
  intro r
  induction r with
  | nil =>
      intro _ s
      simp only [List.foldl_nil, runSet]
      rw [symmDiff_empty_right]
  | cons p ps ih =>
      intro h s
      obtain ⟨a, b⟩ := p
      have hps := (List.pairwise_cons.mp h).2
      rw [List.foldl_cons, ih hps, runSet_cons_symmDiff h]
      show symmDiff (symmDiff s (Finset.Ico a (a + b + 1))) (runSet ps) = _
      rw [Nat.Ico_succ_right, symmDiff_assoc]

/-- From `mixed_xor.c`: `array_bitset_container_xor` flips the array positions
in a copy of the bitmap, then compacts into an array when the new cardinality
is at most `DEFAULT_MAX_SIZE`. -/
def array_bitset_container_xor (src1 : List Nat) (src2 : BitsetC) (_rt : Nat) :
    Container × Nat :=
  let bits := flipList src2.bits src1
  if bits.card ≤ DEFAULT_MAX_SIZE then
    (Container.array (arrayFromBitset bits), ARRAY_CONTAINER_TYPE)
  else
    (Container.bitset { bits := bits, cardinality := (bits.card : Int) },
      BITSET_CONTAINER_TYPE)

/-- From `mixed_xor.c`: `array_bitset_container_lazy_xor` copies `src_2` into
`dst` unless they alias, flips the array positions, and marks the cardinality
UNKNOWN. -/
def array_bitset_container_lazy_xor (src1 : List Nat) (src2 dst : BitsetC)
    (aliased : Bool) : BitsetC :=
  let d0 := if aliased then dst
            else { bits := src2.bits, cardinality := src2.cardinality }
  { bits := flipList d0.bits src1, cardinality := BITSET_UNKNOWN_CARDINALITY }

/-- From `mixed_xor.c`: `run_bitset_container_xor` flips each run range in a
copy of the bitmap, recomputes the cardinality and compacts when small. -/
def run_bitset_container_xor (src1 : List Rle) (src2 : BitsetC) (_rt : Nat) :
    Container × Nat :=
  let bits := src1.foldl (fun s p => flipRange s p.1 (p.1 + p.2 + 1)) src2.bits
  if bits.card ≤ DEFAULT_MAX_SIZE then
    (Container.array (arrayFromBitset bits), ARRAY_CONTAINER_TYPE)
  else
    (Container.bitset { bits := bits, cardinality := (bits.card : Int) },
      BITSET_CONTAINER_TYPE)

/-- From `mixed_xor.c`: `run_bitset_container_lazy_xor` copies `src_2` into
`dst` unless they alias, flips each run range, and marks the cardinality
UNKNOWN. -/
def run_bitset_container_lazy_xor (src1 : List Rle) (src2 dst : BitsetC)
    (aliased : Bool) : BitsetC :=
  let d0 := if aliased then dst
            else { bits := src2.bits, cardinality := src2.cardinality }
  { bits := src1.foldl (fun s p => flipRange s p.1 (p.1 + p.2 + 1)) d0.bits,
    cardinality := BITSET_UNKNOWN_CARDINALITY }

/-- From `mixed_xor.c`: `array_run_container_lazy_xor` merges the array (as
zero-length runs) with the run sequence through smart-exclusive-append; the
run is popped first when its start is not larger than the array value. -/
def array_run_container_lazy_xor (src1 : List Nat) (src2 : List Rle) : List Rle :=
  (xorMergeLoop (src2.length + src1.length) src2
    (src1.map (fun a => (a, 0))) []).reverse

/-- Modelled from the spec: `run_container_xor` XORs two run containers by
smart-exclusive-append over the sorted merge (missing `run.c`). -/
def run_container_xor (src1 src2 : List Rle) : List Rle :=
  (xorMergeLoop (src1.length + src2.length) src1 src2 []).reverse

/-- From `mixed_xor.c`: `array_array_container_xor`. When the upper-bound
cardinality fits an array the merge result is returned without updating
`result_type` — the returned tag is the caller's incoming value; otherwise
the first array becomes a bitmap, the second is flipped in, and the fit step
sets the tag. -/
def array_array_container_xor (src1 src2 : List Nat) (rt : Nat) :
    Container × Nat :=
  if src1.length + src2.length ≤ DEFAULT_MAX_SIZE then
    (Container.array (arrayXorList src1 src2), rt)
  else
    let bits := flipList (bitsetFromArray src1).bits src2
    if bits.card ≤ DEFAULT_MAX_SIZE then
      (Container.array (arrayFromBitset bits), ARRAY_CONTAINER_TYPE)
    else
      (Container.bitset { bits := bits, cardinality := (bits.card : Int) },
        BITSET_CONTAINER_TYPE)

/-- From `mixed_xor.c`: `bitset_bitset_container_xor` computes the word-wise
XOR, then compacts into an array when the cardinality is small enough. -/
def bitset_bitset_container_xor (src1 src2 : BitsetC) (_rt : Nat) :
    Container × Nat :=
  let bits := symmDiff src1.bits src2.bits
  if bits.card ≤ DEFAULT_MAX_SIZE then
    (Container.array (arrayFromBitset bits), ARRAY_CONTAINER_TYPE)
  else
    (Container.bitset { bits := bits, cardinality := (bits.card : Int) },
      BITSET_CONTAINER_TYPE)

/-- From `mixed_xor.c`: `bitset_array_container_ixor` flips the array
positions in the bitset in place; when the result fits an array it converts
the container, but `type1` is left untouched on both paths. -/
def bitset_array_container_ixor (bc1 : BitsetC) (t1 : Nat) (ac2 : List Nat) :
    Container × Nat :=
  let bits := flipList bc1.bits ac2
  if DEFAULT_MAX_SIZE < bits.card then
    (Container.bitset { bits := bits, cardinality := (bits.card : Int) }, t1)
  else
    (Container.array (arrayFromBitset bits), t1)

/-- From `mixed_xor.c`: `array_run_container_xor` dispatch: small arrays go
through the lazy run merge plus conversion; otherwise the run is expanded to
an array when its cardinality is at most `DEFAULT_MAX_SIZE`, else to a
bitmap that the array is flipped into. -/
def array_run_container_xor (ac1 : List Nat) (rc2 : List Rle) (rt : Nat) :
    Container × Nat :=
  if ac1.length < 32 then
    convert_run_to_efficient_container_and_free
      (array_run_container_lazy_xor ac1 rc2)
  else if runCardinality rc2 ≤ DEFAULT_MAX_SIZE then
    array_array_container_xor (arrayFromRun rc2) ac1 rt
  else
    bitset_array_container_ixor (bitsetFromRun rc2) BITSET_CONTAINER_TYPE ac1

/-- From `mixed_xor.c`: `run_run_container_xor`. -/
def run_run_container_xor (src1 src2 : List Rle) (_rt : Nat) : Container × Nat :=
  convert_run_to_efficient_container_and_free (run_container_xor src1 src2)

/-- From `mixed_xor.c`: `bitset_bitset_container_ixor` — the slot is replaced
by the materialized XOR. -/
def bitset_bitset_container_ixor (bc1 : BitsetC) (t1 : Nat) (bc2 : BitsetC) :
    Container × Nat :=
  bitset_bitset_container_xor bc1 bc2 t1

/-- From `mixed_xor.c`: `array_bitset_container_ixor`. -/
def array_bitset_container_ixor (ac1 : List Nat) (t1 : Nat) (bc2 : BitsetC) :
    Container × Nat :=
  array_bitset_container_xor ac1 bc2 t1

/-- From `mixed_xor.c`: `run_bitset_container_ixor`. -/
def run_bitset_container_ixor (rc1 : List Rle) (t1 : Nat) (bc2 : BitsetC) :
    Container × Nat :=
  run_bitset_container_xor rc1 bc2 t1

/-- From `mixed_xor.c`: `bitset_run_container_ixor` swaps the operands into
`run_bitset_container_xor`. -/
def bitset_run_container_ixor (bc1 : BitsetC) (t1 : Nat) (rc2 : List Rle) :
    Container × Nat :=
  run_bitset_container_xor rc2 bc1 t1

/-- From `mixed_xor.c`: `array_run_container_ixor`. -/
def array_run_container_ixor (ac1 : List Nat) (t1 : Nat) (rc2 : List Rle) :
    Container × Nat :=
  array_run_container_xor ac1 rc2 t1

/-- From `mixed_xor.c`: `run_array_container_ixor` swaps the operands into
`array_run_container_xor`, passing the slot tag as the incoming
`result_type`. -/
def run_array_container_ixor (rc1 : List Rle) (t1 : Nat) (ac2 : List Nat) :
    Container × Nat :=
  array_run_container_xor ac2 rc1 t1

/-- From `mixed_xor.c`: `array_array_container_ixor`. -/
def array_array_container_ixor (ac1 : List Nat) (t1 : Nat) (ac2 : List Nat) :
    Container × Nat :=
  array_array_container_xor ac1 ac2 t1

/-- From `mixed_xor.c`: `run_run_container_ixor`. -/
def run_run_container_ixor (rc1 : List Rle) (t1 : Nat) (rc2 : List Rle) :
    Container × Nat :=
  run_run_container_xor rc1 rc2 t1

/-- Whether a container value is in array representation. -/
def isArray : Container → Bool
  | Container.array _ => true
  | _ => false

/-- Whether a container value is in bitset representation. -/
def isBitset : Container → Bool
  | Container.bitset _ => true
  | _ => false

theorem array_bitset_container_xor_elems (a : List Nat) (b : BitsetC)
    (rt : Nat) (hnd : a.Nodup) :
    containerElems (array_bitset_container_xor a b rt).1
      = symmDiff b.bits a.toFinset := by
  simp only [array_bitset_container_xor]
  rw [flipList_eq_symmDiff b.bits a hnd]
  split_ifs <;> simp [containerElems, arrayFromBitset_toFinset]

theorem run_bitset_container_xor_elems (r : List Rle) (b : BitsetC)
    (rt : Nat) (hord : RunsOrdered r) :
    containerElems (run_bitset_container_xor r b rt).1
      = symmDiff b.bits (runSet r) := by
  simp only [run_bitset_container_xor]
  rw [foldl_flipRange_eq_symmDiff r hord b.bits]
  split_ifs <;> simp [containerElems, arrayFromBitset_toFinset]

theorem bitset_bitset_container_xor_elems (b1 b2 : BitsetC) (rt : Nat) :
    containerElems (bitset_bitset_container_xor b1 b2 rt).1
      = symmDiff b1.bits b2.bits := by
  simp only [bitset_bitset_container_xor]
  split_ifs <;> simp [containerElems, arrayFromBitset_toFinset]

theorem array_array_container_xor_elems (a1 a2 : List Nat) (rt : Nat)
    (h1 : a1.Pairwise (· < ·)) (h2 : a2.Pairwise (· < ·)) :
    containerElems (array_array_container_xor a1 a2 rt).1
      = symmDiff a1.toFinset a2.toFinset := by
  have hnd2 : a2.Nodup := h2.imp (fun h => Nat.ne_of_lt h)
  simp only [array_array_container_xor, bitsetFromArray]
  rw [flipList_eq_symmDiff a1.toFinset a2 hnd2]
  split_ifs with hc1 hc2 <;>
    simp [containerElems, arrayFromBitset_toFinset, (arrayXorList_spec a1 a2 h1 h2).2]

theorem bitset_array_container_ixor_elems (bc : BitsetC) (t1 : Nat)
    (a : List Nat) (hnd : a.Nodup) :
    containerElems (bitset_array_container_ixor bc t1 a).1
      = symmDiff bc.bits a.toFinset := by
  simp only [bitset_array_container_ixor]
  rw [flipList_eq_symmDiff bc.bits a hnd]
  split_ifs <;> simp [containerElems, arrayFromBitset_toFinset]

theorem runSet_map_singleton (a : List Nat) :
    runSet (a.map (fun x => (x, 0))) = a.toFinset := by
  induction a with
  | nil => rfl
  | cons x xs ih =>
      simp only [List.map_cons, runSet, rleSet, ih, List.toFinset_cons]
      ext z
      simp [Finset.mem_Icc]

theorem array_run_container_lazy_xor_runSet (a : List Nat) (r : List Rle)
    (ha : a.Pairwise (· < ·))
    (hr : r.Pairwise (fun p q => p.1 + p.2 + 1 < q.1)) :
    runSet (array_run_container_lazy_xor a r)
      = symmDiff (runSet r) a.toFinset := by
  have hord1 : RunsOrdered r := hr.imp (fun h => Nat.le_of_lt h)
  have hord2 : RunsOrdered (a.map (fun x => (x, 0))) := by
    rw [RunsOrdered, List.pairwise_map]
    exact ha.imp (fun h => by omega)
  have h := xorMergeLoop_correct r (a.map (fun x => (x, 0))) hord1 hord2
  rw [array_run_container_lazy_xor, runSet_reverse]
  rw [show r.length + a.length = r.length + (a.map (fun x => (x, 0))).length by
    simp]
  rw [h.2, runSet_map_singleton]

theorem run_container_xor_runSet (r1 r2 : List Rle)
    (h1 : r1.Pairwise (fun p q => p.1 + p.2 + 1 < q.1))
    (h2 : r2.Pairwise (fun p q => p.1 + p.2 + 1 < q.1)) :
    runSet (run_container_xor r1 r2) = symmDiff (runSet r1) (runSet r2) := by
  have hord1 : RunsOrdered r1 := h1.imp (fun h => Nat.le_of_lt h)
  have hord2 : RunsOrdered r2 := h2.imp (fun h => Nat.le_of_lt h)
  have h := xorMergeLoop_correct r1 r2 hord1 hord2
  rw [run_container_xor, runSet_reverse, h.2]

theorem run_run_container_xor_elems (r1 r2 : List Rle) (rt : Nat)
    (h1 : r1.Pairwise (fun p q => p.1 + p.2 + 1 < q.1))
    (h2 : r2.Pairwise (fun p q => p.1 + p.2 + 1 < q.1)) :
    containerElems (run_run_container_xor r1 r2 rt).1
      = symmDiff (runSet r1) (runSet r2) := by
  rw [run_run_container_xor, convert_elems, run_container_xor_runSet r1 r2 h1 h2]

theorem array_run_container_xor_elems (ac : List Nat) (rc : List Rle) (rt : Nat)
    (ha : ac.Pairwise (· < ·))
    (hr : rc.Pairwise (fun p q => p.1 + p.2 + 1 < q.1)) :
    containerElems (array_run_container_xor ac rc rt).1
      = symmDiff ac.toFinset (runSet rc) := by
  have hnd : ac.Nodup := ha.imp (fun h => Nat.ne_of_lt h)
  rw [array_run_container_xor]
  split_ifs with hb1 hb2
  · rw [convert_elems, array_run_container_lazy_xor_runSet ac rc ha hr,
      symmDiff_comm]
  · rw [array_array_container_xor_elems (arrayFromRun rc) ac rt
      (arrayFromRun_sorted rc hr) ha, arrayFromRun_toFinset, symmDiff_comm]
  · rw [bitset_array_container_ixor_elems (bitsetFromRun rc)
      BITSET_CONTAINER_TYPE ac hnd]
    show symmDiff (runSet rc) ac.toFinset = _
    rw [symmDiff_comm]

/-- Modelled from the spec: the top-level bitmap is a sorted directory of
(16-bit key, container) entries; containers are abstracted to their offset
sets here, since only the XOR container family is part of this slice. -/
structure RoaringM where
  dir : List (Nat × Finset Nat)
deriving DecidableEq

/-- Validity of a directory: strictly increasing keys below 2^16 and
nonempty containers of 16-bit offsets. -/
def DirValid (d : List (Nat × Finset Nat)) : Prop :=
  d.Pairwise (fun e f => e.1 < f.1) ∧
  ∀ e ∈ d, e.1 < 65536 ∧ e.2.Nonempty ∧ ∀ x ∈ e.2, x < 65536

instance (d : List (Nat × Finset Nat)) : Decidable (DirValid d) :=
  inferInstanceAs
    (Decidable (d.Pairwise (fun (e f : Nat × Finset Nat) => e.1 < f.1) ∧
      ∀ e ∈ d, e.1 < 65536 ∧ e.2.Nonempty ∧ ∀ x ∈ e.2, x < 65536))

/-- Validity of a top-level bitmap. -/
def RoaringValid (bm : RoaringM) : Prop := DirValid bm.dir

instance (bm : RoaringM) : Decidable (RoaringValid bm) :=
  inferInstanceAs (Decidable (DirValid bm.dir))

/-- Value set denoted by a directory: each entry contributes
`key * 2^16 + offset`. -/
def dirElems : List (Nat × Finset Nat) → Finset Nat
  | [] => ∅
  | e :: es => e.2.image (fun o => e.1 * 65536 + o) ∪ dirElems es

/-- Value set of a top-level bitmap. -/
def elemsR (bm : RoaringM) : Finset Nat := dirElems bm.dir

theorem mem_dirElems {z : Nat} : ∀ {d : List (Nat × Finset Nat)},
    z ∈ dirElems d ↔ ∃ e ∈ d, ∃ o ∈ e.2, z = e.1 * 65536 + o := by
  intro d
  induction d with
  | nil => simp [dirElems]
  | cons e es ih =>
      simp only [dirElems, Finset.mem_union, Finset.mem_image, ih,
        List.mem_cons]
      constructor
      · rintro (⟨o, ho, rfl⟩ | ⟨f, hf, o, ho, rfl⟩)
        · exact ⟨e, Or.inl rfl, o, ho, rfl⟩
        · exact ⟨f, Or.inr hf, o, ho, rfl⟩
      · rintro ⟨f, hf | hf, o, ho, rfl⟩
        · subst hf; exact Or.inl ⟨o, ho, rfl⟩
        · exact Or.inr ⟨f, hf, o, ho, rfl⟩

/-- The cardinality of a bitmap, summed over the directory
(`roaring_bitmap_get_cardinality`). -/
def cardR (bm : RoaringM) : Nat := (bm.dir.map (fun e => e.2.card)).sum

/-- Modelled from the spec: `roaring_bitmap_select` walks the containers in
order, skips whole containers whose cardinality is at most the remaining
rank, and selects inside the first surviving container. -/
def selectDir : List (Nat × Finset Nat) → Nat → Option Nat
  | [], _ => none
  | e :: es, r =>
      if r < e.2.card then
        ((e.2.sort (· ≤ ·)).get? r).map (fun o => e.1 * 65536 + o)
      else selectDir es (r - e.2.card)

/-- Modelled from the spec: boolean-result select as exposed by
`Roaring::select`; `none` models the false return, `some v` models true
with `v` stored through the out-parameter. -/
def selectR (bm : RoaringM) (rnk : Nat) : Option Nat := selectDir bm.dir rnk

/-- The strictly ascending enumeration of the values of a directory. -/
def sortedElems : List (Nat × Finset Nat) → List Nat
  | [] => []
  | e :: es => (e.2.sort (· ≤ ·)).map (fun o => e.1 * 65536 + o) ++ sortedElems es

theorem mem_sortedElems {z : Nat} : ∀ {d : List (Nat × Finset Nat)},
    z ∈ sortedElems d ↔ ∃ e ∈ d, ∃ o ∈ e.2, z = e.1 * 65536 + o := by
  intro d
  induction d with
  | nil => simp [sortedElems]
  | cons e es ih =>
      simp only [sortedElems, List.mem_append, List.mem_map, Finset.mem_sort,
        ih, List.mem_cons]
      constructor
      · rintro (⟨o, ho, rfl⟩ | ⟨f, hf, o, ho, rfl⟩)
        · exact ⟨e, Or.inl rfl, o, ho, rfl⟩
        · exact ⟨f, Or.inr hf, o, ho, rfl⟩
      · rintro ⟨f, hf | hf, o, ho, rfl⟩
        · subst hf; exact Or.inl ⟨o, ho, rfl⟩
        · exact Or.inr ⟨f, hf, o, ho, rfl⟩

theorem sortedElems_length : ∀ (d : List (Nat × Finset Nat)),
    (sortedElems d).length = (d.map (fun e => e.2.card)).sum := by
  intro d
  induction d with
  | nil => rfl
  | cons e es ih =>
      simp [sortedElems, ih, Finset.length_sort]

theorem sortedElems_sorted : ∀ (d : List (Nat × Finset Nat)), DirValid d →
    (sortedElems d).Pairwise (· < ·) := by
  intro d
  induction d with
  | nil => intro _; exact List.Pairwise.nil
  | cons e es ih =>
      intro hv
      obtain ⟨hkeys, hent⟩ := hv
      have hkey_rest := (List.pairwise_cons.mp hkeys).1
      have hv2 : DirValid es :=
        ⟨(List.pairwise_cons.mp hkeys).2, fun f hf => hent f (List.mem_cons_of_mem _ hf)⟩
      simp only [sortedElems]
      rw [List.pairwise_append]
      refine ⟨?_, ih hv2, ?_⟩
      · rw [List.pairwise_map]
        exact (e.2.sort_sorted_lt).imp (fun h => by omega)
      · intro x hx y hy
        obtain ⟨o, ho, rfl⟩ := List.mem_map.mp hx
        have ho2 : o ∈ e.2 := (Finset.mem_sort _).mp ho
        have hob : o < 65536 := (hent e (List.mem_cons_self _ _)).2.2 o ho2
        have hy2 := mem_sortedElems.mp hy
        obtain ⟨f, hf, o2, ho3, rfl⟩ := hy2
        have hkey : e.1 < f.1 := hkey_rest f hf
        have : e.1 * 65536 + 65536 ≤ f.1 * 65536 := by
          have : e.1 + 1 ≤ f.1 := hkey
          calc e.1 * 65536 + 65536 = (e.1 + 1) * 65536 := by ring
            _ ≤ f.1 * 65536 := Nat.mul_le_mul_right _ this
        omega

theorem sortedElems_toFinset : ∀ (d : List (Nat × Finset Nat)),
    (sortedElems d).toFinset = dirElems d := by
  intro d
  ext z
  rw [List.mem_toFinset, mem_sortedElems, mem_dirElems]

theorem selectDir_eq_get : ∀ (d : List (Nat × Finset Nat)) (r : Nat),
    selectDir d r = (sortedElems d).get? r := by
  intro d
  induction d with
  | nil => intro r; rfl
  | cons e es ih =>
      intro r
      simp only [selectDir, sortedElems]
      by_cases h : r < e.2.card
      · rw [if_pos h, List.get?_append]
        · rw [List.get?_map]
        · simp [Finset.length_sort, h]
      · rw [if_neg h, ih, List.get?_append_right]
        · simp [Finset.length_sort]
        · simp only [List.length_map, Finset.length_sort]
          omega

/-- In a strictly sorted list, the element at index `r` has exactly `r`
smaller elements in the list: it is the r-th smallest, 0-based. -/
theorem get_sorted_rank : ∀ (l : List Nat), l.Pairwise (· < ·) →
    ∀ (r v : Nat), l.get? r = some v →
    v ∈ l.toFinset ∧ (l.toFinset.filter (fun x => x < v)).card = r := by
  intro l
  induction l with
  | nil => intro _ r v h; simp at h
  | cons x xs ih =>
      intro hp r v h
      have hxxs := (List.pairwise_cons.mp hp).1
      have hxs := (List.pairwise_cons.mp hp).2
      have hxnxs : x ∉ xs.toFinset := by
        intro hmem
        exact absurd (hxxs x (List.mem_toFinset.mp hmem)) (lt_irrefl x)
      match r, h with
      | 0, h =>
          have hv : x = v := by simpa using h
          subst hv
          refine ⟨by simp, ?_⟩
          rw [List.toFinset_cons, Finset.filter_insert, if_neg (lt_irrefl x)]
          rw [Finset.card_eq_zero, Finset.filter_eq_empty_iff]
          intro y hy
          have := hxxs y (List.mem_toFinset.mp hy)
          omega
      | Nat.succ r, h =>
          have h2 : xs.get? r = some v := by simpa using h
          obtain ⟨hv1, hv2⟩ := ih hxs r v h2
          have hxv : x < v := hxxs v (List.mem_toFinset.mp hv1)
          refine ⟨by simp [List.mem_toFinset.mp hv1], ?_⟩
          rw [List.toFinset_cons, Finset.filter_insert, if_pos hxv,
            Finset.card_insert_of_not_mem, hv2]
          intro hmem
          exact hxnxs (Finset.mem_of_mem_filter x hmem)

/-- Fuelled directory walk for the pairwise union (modelled from the spec:
left-only and right-only entries are copied, equal keys dispatch the
container union; the output stays sorted by construction). -/
def orDirF : Nat → List (Nat × Finset Nat) → List (Nat × Finset Nat) →
    List (Nat × Finset Nat)
  | _, [], ys => ys
  | _, e :: xs, [] => e :: xs
  | 0, _ :: _, _ :: _ => []
  | n + 1, e :: xs, f :: ys =>
      if e.1 < f.1 then e :: orDirF n xs (f :: ys)
      else if f.1 < e.1 then f :: orDirF n (e :: xs) ys
      else (e.1, e.2 ∪ f.2) :: orDirF n xs ys

/-- Modelled from the spec: the pairwise union directory walk. -/
def orDir (x y : List (Nat × Finset Nat)) : List (Nat × Finset Nat) :=
  orDirF (x.length + y.length) x y

/-- Modelled from the spec: pairwise bitmap union (`roaring_bitmap_or`). -/
def orM (a b : RoaringM) : RoaringM := ⟨orDir a.dir b.dir⟩

/-- Modelled from the spec: `roaring_bitmap_or_many`, the heap-based k-way
merge behind `Roaring::fastunion`: no input yields the empty bitmap, and the
inputs are otherwise combined by union. -/
def fastunionM : List RoaringM → RoaringM
  | [] => RoaringM.mk []
  | x :: rest => rest.foldl orM x

set_option maxHeartbeats 1000000 in
set_option maxRecDepth 8000 in
theorem orDirF_spec : ∀ (n : Nat) (x y : List (Nat × Finset Nat)),
    x.length + y.length ≤ n → DirValid x → DirValid y →
    DirValid (orDirF n x y) ∧
    dirElems (orDirF n x y) = dirElems x ∪ dirElems y ∧
    (∀ g ∈ orDirF n x y, ∃ e, (e ∈ x ∨ e ∈ y) ∧ g.1 = e.1) := by
  intro n
  induction n with
  | zero =>
      intro x y hlen hx hy
      rcases x with _ | ⟨e, xs⟩
      · refine ⟨hy, ?_, ?_⟩
        · simp only [orDirF, dirElems]
          rw [Finset.empty_union]
        · intro g hg; exact ⟨g, Or.inr hg, rfl⟩
      · rcases y with _ | ⟨f, ys⟩
        · refine ⟨hx, ?_, ?_⟩
          · simp only [orDirF, dirElems]
            rw [Finset.union_empty]
          · intro g hg; exact ⟨g, Or.inl hg, rfl⟩
        · simp at hlen
  | succ n ih =>
      intro x y hlen hx hy
      rcases x with _ | ⟨e, xs⟩
      · refine ⟨hy, ?_, ?_⟩
        · simp only [orDirF, dirElems]
          rw [Finset.empty_union]
        · intro g hg; exact ⟨g, Or.inr hg, rfl⟩
      · rcases y with _ | ⟨f, ys⟩
        · refine ⟨hx, ?_, ?_⟩
          · simp only [orDirF, dirElems]
            rw [Finset.union_empty]
          · intro g hg; exact ⟨g, Or.inl hg, rfl⟩
        · obtain ⟨hxk, hxe⟩ := hx
          obtain ⟨hyk, hye⟩ := hy
          have hxk1 := (List.pairwise_cons.mp hxk).1
          have hxk2 := (List.pairwise_cons.mp hxk).2
          have hyk1 := (List.pairwise_cons.mp hyk).1
          have hyk2 := (List.pairwise_cons.mp hyk).2
          have hxv : DirValid xs :=
            ⟨hxk2, fun g hg => hxe g (List.mem_cons_of_mem _ hg)⟩
          have hyv : DirValid ys :=
            ⟨hyk2, fun g hg => hye g (List.mem_cons_of_mem _ hg)⟩
          have hee := hxe e (List.mem_cons_self _ _)
          have hfe := hye f (List.mem_cons_self _ _)
          simp only [orDirF]
          by_cases h1 : e.1 < f.1
          · rw [if_pos h1]
            have hrec := ih xs (f :: ys)
              (by simp only [List.length_cons] at hlen ⊢; omega) hxv ⟨hyk, hye⟩
            refine ⟨⟨?_, ?_⟩, ?_, ?_⟩
            · refine List.Pairwise.cons ?_ hrec.1.1
              intro g hg
              obtain ⟨e2, he2, hkey⟩ := hrec.2.2 g hg
              rw [hkey]
              rcases he2 with h | h
              · exact hxk1 e2 h
              · rcases List.mem_cons.mp h with h2 | h2
                · subst h2; exact h1
                · have := hyk1 e2 h2; omega
            · intro g hg
              rcases List.mem_cons.mp hg with h | h
              · subst h; exact hee
              · exact hrec.1.2 g h
            · simp only [dirElems, hrec.2.1]
              rw [Finset.union_assoc]
            · intro g hg
              rcases List.mem_cons.mp hg with h | h
              · subst h; exact ⟨g, Or.inl (List.mem_cons_self _ _), rfl⟩
              · obtain ⟨e2, he2, hkey⟩ := hrec.2.2 g h
                rcases he2 with h2 | h2
                · exact ⟨e2, Or.inl (List.mem_cons_of_mem _ h2), hkey⟩
                · exact ⟨e2, Or.inr h2, hkey⟩
          · rw [if_neg h1]
            by_cases h2 : f.1 < e.1
            · rw [if_pos h2]
              have hrec := ih (e :: xs) ys
                (by simp only [List.length_cons] at hlen ⊢; omega) ⟨hxk, hxe⟩ hyv
              refine ⟨⟨?_, ?_⟩, ?_, ?_⟩
              · refine List.Pairwise.cons ?_ hrec.1.1
                intro g hg
                obtain ⟨e2, he2, hkey⟩ := hrec.2.2 g hg
                rw [hkey]
                rcases he2 with h | h
                · rcases List.mem_cons.mp h with h3 | h3
                  · subst h3; exact h2
                  · have := hxk1 e2 h3; omega
                · have := hyk1 e2 h; omega
              · intro g hg
                rcases List.mem_cons.mp hg with h | h
                · subst h; exact hfe
                · exact hrec.1.2 g h
              · simp only [dirElems, hrec.2.1]
                rw [Finset.union_left_comm]
              · intro g hg
                rcases List.mem_cons.mp hg with h | h
                · subst h; exact ⟨g, Or.inr (List.mem_cons_self _ _), rfl⟩
                · obtain ⟨e2, he2, hkey⟩ := hrec.2.2 g h
                  rcases he2 with h3 | h3
                  · exact ⟨e2, Or.inl h3, hkey⟩
                  · exact ⟨e2, Or.inr (List.mem_cons_of_mem _ h3), hkey⟩
            · have hkeq : e.1 = f.1 := by omega
              rw [if_neg h2]
              have hrec := ih xs ys
                (by simp only [List.length_cons] at hlen ⊢; omega) hxv hyv
              refine ⟨⟨?_, ?_⟩, ?_, ?_⟩
              · refine List.Pairwise.cons ?_ hrec.1.1
                intro g hg
                obtain ⟨e2, he2, hkey⟩ := hrec.2.2 g hg
                rw [hkey]
                rcases he2 with h | h
                · exact hxk1 e2 h
                · have := hyk1 e2 h; omega
              · intro g hg
                rcases List.mem_cons.mp hg with h | h
                · subst h
                  exact ⟨hee.1, hee.2.1.mono Finset.subset_union_left,
                    fun z hz => by
                      rcases Finset.mem_union.mp hz with h3 | h3
                      · exact hee.2.2 z h3
                      · exact hfe.2.2 z h3⟩
                · exact hrec.1.2 g h
              · simp only [dirElems, hrec.2.1, Finset.image_union, hkeq]
                rw [Finset.union_union_union_comm]
              · intro g hg
                rcases List.mem_cons.mp hg with h | h
                · subst h; exact ⟨e, Or.inl (List.mem_cons_self _ _), rfl⟩
                · obtain ⟨e2, he2, hkey⟩ := hrec.2.2 g h
                  rcases he2 with h3 | h3
                  · exact ⟨e2, Or.inl (List.mem_cons_of_mem _ h3), hkey⟩
                  · exact ⟨e2, Or.inr (List.mem_cons_of_mem _ h3), hkey⟩

theorem orM_spec (a b : RoaringM) (ha : RoaringValid a) (hb : RoaringValid b) :
    RoaringValid (orM a b) ∧ elemsR (orM a b) = elemsR a ∪ elemsR b := by
  have h := orDirF_spec (a.dir.length + b.dir.length) a.dir b.dir le_rfl ha hb
  exact ⟨h.1, h.2.1⟩

theorem foldl_orM_spec : ∀ (rest : List RoaringM) (init : RoaringM),
    RoaringValid init → (∀ bm ∈ rest, RoaringValid bm) →
    RoaringValid (rest.foldl orM init) ∧
    elemsR (rest.foldl orM init)
      = rest.foldl (fun s bm => s ∪ elemsR bm) (elemsR init) := by
  intro rest
  induction rest with
  | nil => intro init h _; exact ⟨h, rfl⟩
  | cons bm rest ih =>
      intro init hinit hall
      have h1 := orM_spec init bm hinit (hall bm (List.mem_cons_self _ _))
      have h2 := ih (orM init bm) h1.1
        (fun c hc => hall c (List.mem_cons_of_mem _ hc))
      simp only [List.foldl_cons]
      exact ⟨h2.1, by rw [h2.2, h1.2]⟩

/-- Modelled from the spec: the four top-level set operations
(`roaring_bitmap_and/or/andnot/xor`); the value-set behaviour is modelled,
the directory walk being outside this slice. -/
inductive BmOp where
  | union
  | inter
  | diff
  | sdiff
deriving DecidableEq

/-- Modelled from the spec: the materialized variant of the four operations. -/
def matOp : BmOp → Finset Nat → Finset Nat → Finset Nat
  | BmOp.union, a, b => a ∪ b
  | BmOp.inter, a, b => a ∩ b
  | BmOp.diff, a, b => a \ b
  | BmOp.sdiff, a, b => symmDiff a b

/-- Modelled from the spec: the in-place variant writes the same value set
back into the left operand slot. -/
def inplaceOp (op : BmOp) (x b : Finset Nat) : Finset Nat := matOp op x b

/-- Modelled from the spec: copying a bitmap yields an equal value set. -/
def copyBm (a : Finset Nat) : Finset Nat := a

/-- Modelled from the spec: `ra_clear` frees the whole directory, leaving
the bitmap empty. -/
def ra_clear (_bm : RoaringM) : RoaringM := RoaringM.mk []

/-- From `cpp/roaring.hh`: copy assignment `Roaring::operator=` first calls
`ra_clear` on the target, then performs the fallible `ra_copy`; on
allocation failure an exception propagates while the target has already
been cleared. The allocation outcome is an explicit oracle; the error value
carries the target state observable after the throw. -/
def assignCopy (target source : RoaringM) (allocOk : Bool) :
    Except RoaringM RoaringM :=
  let cleared := ra_clear target
  if allocOk then Except.ok source else Except.error cleared

/-- From `cpp/roaring.hh`: the copy constructor performs the fallible
`ra_copy` into a fresh object and throws on failure. -/
def copyCtor (source : RoaringM) (allocOk : Bool) : Except Unit RoaringM :=
  if allocOk then Except.ok source else Except.error ()

/-- Modelled from the spec: `roaring_bitmap_contains_range` — all values of
`[x, min y 2^32)` must be present; the doublecheck harness in `roaring.hh`
asserts the result is true whenever `x ≥ y`. -/
def containsRangeM (bm : RoaringM) (x y : Nat) : Bool :=
  decide (Finset.Ico x (min y 4294967296) ⊆ elemsR bm)

/-- Modelled from the spec: `roaring_bitmap_maximum` returns the largest
value, and 0 on the empty bitmap (asserted by the doublecheck harness). -/
def maximumM (bm : RoaringM) : Nat :=
  if h : (elemsR bm).Nonempty then (elemsR bm).max' h else 0

/-- Modelled from the spec: `roaring_bitmap_minimum` returns the smallest
value, and `UINT32_MAX` on the empty bitmap (asserted by the doublecheck
harness). -/
def minimumM (bm : RoaringM) : Nat :=
  if h : (elemsR bm).Nonempty then (elemsR bm).min' h else 4294967295

/-- C1: for every valid array container A and run container R, the mixed
`array_run_container_xor` returns a container whose element set is A △ R,
and it follows the dispatch policy: when the array cardinality is below the
threshold 32 it emits into a run container via smart-exclusive-append and
converts to the most efficient representation; otherwise, when the run's
expanded cardinality is at most 4096 it converts the run to an array and
performs array×array XOR, and when it exceeds 4096 it converts the run to a
bitmap and flips the array's positions in it. -/
theorem C1_array_run_xor (ac : List Nat) (rc : List Rle) (rt : Nat)
    (ha : ArrayValid ac) (hr : RunValid rc) :
    containerElems (array_run_container_xor ac rc rt).1
      = symmDiff ac.toFinset (runSet rc) ∧
    (ac.length < 32 →
      array_run_container_xor ac rc rt
        = convert_run_to_efficient_container_and_free
            (array_run_container_lazy_xor ac rc)) ∧
    (32 ≤ ac.length → runCardinality rc ≤ 4096 →
      array_run_container_xor ac rc rt
        = array_array_container_xor (arrayFromRun rc) ac rt) ∧
    (32 ≤ ac.length → 4096 < runCardinality rc →
      array_run_container_xor ac rc rt
        = bitset_array_container_ixor (bitsetFromRun rc)
            BITSET_CONTAINER_TYPE ac) := by
  refine ⟨array_run_container_xor_elems ac rc rt ha.1 hr.1, ?_, ?_, ?_⟩
  · intro h
    rw [array_run_container_xor, if_pos h]
  · intro h1 h2
    rw [array_run_container_xor, if_neg (by omega),
      if_pos (show runCardinality rc ≤ DEFAULT_MAX_SIZE by
        rw [DEFAULT_MAX_SIZE]; omega)]
  · intro h1 h2
    rw [array_run_container_xor, if_neg (by omega),
      if_neg (show ¬ runCardinality rc ≤ DEFAULT_MAX_SIZE by
        rw [DEFAULT_MAX_SIZE]; omega)]

theorem C1_witness :
    ArrayValid [0, 2] ∧ RunValid [(1, 2)] ∧
    containerElems (array_run_container_xor [0, 2] [(1, 2)] 0).1
      = symmDiff ([0, 2] : List Nat).toFinset (runSet [(1, 2)]) :=
  ⟨by decide, by decide,
    (C1_array_run_xor [0, 2] [(1, 2)] 0 (by decide) (by decide)).1⟩

/-- C2: the code contradicts the documented slot invariant. Evaluating
`run_array_container_ixor` on the run container {100} (tag RUN) and a
32-element array takes the run-to-array path, whose small-result branch in
`array_array_container_xor` returns an array container without writing
`result_type`: the slot holds an array container while the tag written back
still says RUN. -/
theorem C2_run_array_ixor_tag_bug :
    isArray (run_array_container_ixor [(100, 0)] RUN_CONTAINER_TYPE
      (List.range 32)).1 = true ∧
    (run_array_container_ixor [(100, 0)] RUN_CONTAINER_TYPE
      (List.range 32)).2 = RUN_CONTAINER_TYPE ∧
    tagOf (run_array_container_ixor [(100, 0)] RUN_CONTAINER_TYPE
      (List.range 32)).1 ≠ RUN_CONTAINER_TYPE := by
  decide

/-- C3: every non-lazy mixed XOR producing its result through a bitmap ends
with a fit step — for `array_bitset_container_xor` and
`bitset_bitset_container_xor` the result is an array container with tag
`ARRAY_CONTAINER_TYPE` exactly when the result cardinality is at most 4096,
and otherwise stays a bitset with an accurate cached cardinality; for the
run-producing `run_run_container_xor` the conversion pass picks the
representation of minimal footprint among run, array and bitmap, with a
matching tag. -/
theorem C3_fit_step (a : List Nat) (b b1 b2 : BitsetC) (r1 r2 : List Rle)
    (rt1 rt2 rt3 : Nat) (hnd : a.Nodup) :
    ((isArray (array_bitset_container_xor a b rt1).1 = true ∧
        (array_bitset_container_xor a b rt1).2 = ARRAY_CONTAINER_TYPE) ↔
      (symmDiff b.bits a.toFinset).card ≤ 4096) ∧
    (4096 < (symmDiff b.bits a.toFinset).card →
      (array_bitset_container_xor a b rt1).1
          = Container.bitset (BitsetC.mk (symmDiff b.bits a.toFinset)
              (((symmDiff b.bits a.toFinset)).card : Int)) ∧
        (array_bitset_container_xor a b rt1).2 = BITSET_CONTAINER_TYPE) ∧
    ((isArray (bitset_bitset_container_xor b1 b2 rt2).1 = true ∧
        (bitset_bitset_container_xor b1 b2 rt2).2 = ARRAY_CONTAINER_TYPE) ↔
      (symmDiff b1.bits b2.bits).card ≤ 4096) ∧
    (4096 < (symmDiff b1.bits b2.bits).card →
      (bitset_bitset_container_xor b1 b2 rt2).1
          = Container.bitset (BitsetC.mk (symmDiff b1.bits b2.bits)
              (((symmDiff b1.bits b2.bits)).card : Int)) ∧
        (bitset_bitset_container_xor b1 b2 rt2).2 = BITSET_CONTAINER_TYPE) ∧
    ((run_run_container_xor r1 r2 rt3).2
        = tagOf (run_run_container_xor r1 r2 rt3).1 ∧
      footprint (run_run_container_xor r1 r2 rt3).1
          ≤ 2 + 4 * (run_container_xor r1 r2).length ∧
      footprint (run_run_container_xor r1 r2 rt3).1
          ≤ 2 * runCardinality (run_container_xor r1 r2) ∧
      footprint (run_run_container_xor r1 r2 rt3).1 ≤ 8192) := by
  have hmf := convert_min_footprint (run_container_xor r1 r2)
  refine ⟨?_, ?_, ?_, ?_, convert_tag _, hmf.1, hmf.2.1, hmf.2.2⟩
  · simp only [array_bitset_container_xor]
    rw [flipList_eq_symmDiff b.bits a hnd]
    split_ifs with h <;>
      simp only [isArray, DEFAULT_MAX_SIZE] at h ⊢ <;> simp [h]
  · intro hc
    simp only [array_bitset_container_xor]
    rw [flipList_eq_symmDiff b.bits a hnd]
    rw [if_neg (by rw [DEFAULT_MAX_SIZE]; omega)]
    exact ⟨rfl, rfl⟩
  · simp only [bitset_bitset_container_xor]
    split_ifs with h <;>
      simp only [isArray, DEFAULT_MAX_SIZE] at h ⊢ <;> simp [h]
  · intro hc
    simp only [bitset_bitset_container_xor]
    rw [if_neg (by rw [DEFAULT_MAX_SIZE]; omega)]
    exact ⟨rfl, rfl⟩

theorem C3_witness :
    ([2, 7] : List Nat).Nodup ∧
    ((isArray (array_bitset_container_xor [2, 7]
          { bits := {2, 3}, cardinality := 2 } 0).1 = true ∧
        (array_bitset_container_xor [2, 7]
          { bits := {2, 3}, cardinality := 2 } 0).2 = ARRAY_CONTAINER_TYPE) ↔
      (symmDiff ({2, 3} : Finset Nat) ([2, 7] : List Nat).toFinset).card ≤ 4096) :=
  ⟨by decide,
    (C3_fit_step [2, 7] { bits := {2, 3}, cardinality := 2 }
      { bits := {0}, cardinality := 1 } { bits := {1}, cardinality := 1 }
      [(0, 1)] [(4, 0)] 0 0 0 (by decide)).1⟩

/-- C4: in-place equals materialized. At the top level, copying the left
bitmap and applying the in-place variant of each of the four set operations
yields the same value set as the materialized variant. At the container
level, every `*_ixor` of `mixed_xor.c` leaves in the slot a container
denoting exactly the symmetric difference of its two inputs, i.e. the set
of the corresponding materialized XOR. -/
theorem C4_inplace_equals_materialized (op : BmOp) (A B : Finset Nat)
    (bc1 bc2 : BitsetC) (a1 a2 : List Nat) (r1 r2 : List Rle) (t : Nat)
    (ha1 : a1.Pairwise (· < ·)) (ha2 : a2.Pairwise (· < ·))
    (hr1 : r1.Pairwise (fun p q => p.1 + p.2 + 1 < q.1))
    (hr2 : r2.Pairwise (fun p q => p.1 + p.2 + 1 < q.1)) :
    inplaceOp op (copyBm A) B = matOp op A B ∧
    containerElems (bitset_bitset_container_ixor bc1 t bc2).1
      = symmDiff bc1.bits bc2.bits ∧
    containerElems (array_bitset_container_ixor a1 t bc2).1
      = symmDiff a1.toFinset bc2.bits ∧
    containerElems (run_bitset_container_ixor r1 t bc2).1
      = symmDiff (runSet r1) bc2.bits ∧
    containerElems (bitset_run_container_ixor bc1 t r2).1
      = symmDiff bc1.bits (runSet r2) ∧
    containerElems (array_run_container_ixor a1 t r2).1
      = symmDiff a1.toFinset (runSet r2) ∧
    containerElems (run_array_container_ixor r1 t a2).1
      = symmDiff (runSet r1) a2.toFinset ∧
    containerElems (array_array_container_ixor a1 t a2).1
      = symmDiff a1.toFinset a2.toFinset ∧
    containerElems (run_run_container_ixor r1 t r2).1
      = symmDiff (runSet r1) (runSet r2) ∧
    containerElems (bitset_array_container_ixor bc1 t a2).1
      = symmDiff bc1.bits a2.toFinset := by
  have hnd1 : a1.Nodup := ha1.imp (fun h => Nat.ne_of_lt h)
  have hnd2 : a2.Nodup := ha2.imp (fun h => Nat.ne_of_lt h)
  have hord1 : RunsOrdered r1 := hr1.imp (fun h => Nat.le_of_lt h)
  refine ⟨rfl, ?_, ?_, ?_, ?_, ?_, ?_, ?_, ?_, ?_⟩
  · exact bitset_bitset_container_xor_elems bc1 bc2 t
  · rw [array_bitset_container_ixor,
      array_bitset_container_xor_elems a1 bc2 t hnd1, symmDiff_comm]
  · rw [run_bitset_container_ixor,
      run_bitset_container_xor_elems r1 bc2 t hord1, symmDiff_comm]
  · rw [bitset_run_container_ixor,
      run_bitset_container_xor_elems r2 bc1 t (hr2.imp (fun h => Nat.le_of_lt h))]
  · exact array_run_container_xor_elems a1 r2 t ha1 hr2
  · rw [run_array_container_ixor,
      array_run_container_xor_elems a2 r1 t ha2 hr1, symmDiff_comm]
  · exact array_array_container_xor_elems a1 a2 t ha1 ha2
  · exact run_run_container_xor_elems r1 r2 t hr1 hr2
  · exact bitset_array_container_ixor_elems bc1 t a2 hnd2

theorem C4_witness :
    (List.Pairwise (· < ·) [1, 3] ∧ List.Pairwise (· < ·) [3, 4] ∧
      List.Pairwise (fun (p q : Rle) => p.1 + p.2 + 1 < q.1) [(0, 1)] ∧
      List.Pairwise (fun (p q : Rle) => p.1 + p.2 + 1 < q.1) [(2, 2)]) ∧
    containerElems (run_array_container_ixor [(0, 1)] RUN_CONTAINER_TYPE
        [3, 4]).1 = symmDiff (runSet [(0, 1)]) ([3, 4] : List Nat).toFinset :=
  ⟨⟨by decide, by decide, by decide, by decide⟩,
    (C4_inplace_equals_materialized BmOp.sdiff ∅ ∅
      { bits := {0}, cardinality := 1 } { bits := {1}, cardinality := 1 }
      [1, 3] [3, 4] [(0, 1)] [(2, 2)] RUN_CONTAINER_TYPE
      (by decide) (by decide) (by decide) (by decide)).2.2.2.2.2.2.1⟩

/-- C5: for every valid bitmap and rank, select returns no value exactly
when the rank is at least the cardinality (the out-of-range case surfaces
through the boolean result), and otherwise returns the element at position
`r` of the strictly ascending enumeration of the bitmap — the r-th smallest
value, 0-based: it belongs to the bitmap and exactly `r` of the bitmap's
values are below it. -/
theorem C5_select (bm : RoaringM) (h : RoaringValid bm) (r : Nat) :
    (selectR bm r = none ↔ cardR bm ≤ r) ∧
    selectR bm r = (sortedElems bm.dir).get? r ∧
    (sortedElems bm.dir).Pairwise (· < ·) ∧
    (sortedElems bm.dir).toFinset = elemsR bm ∧
    (∀ v, selectR bm r = some v →
      v ∈ elemsR bm ∧ ((elemsR bm).filter (fun x => x < v)).card = r) := by
  have hsort := sortedElems_sorted bm.dir h
  have hget := selectDir_eq_get bm.dir r
  have hfin := sortedElems_toFinset bm.dir
  refine ⟨?_, hget, hsort, hfin, ?_⟩
  · rw [selectR, hget, List.get?_eq_none, sortedElems_length]
    rfl
  · intro v hv
    rw [selectR, hget] at hv
    have h2 := get_sorted_rank (sortedElems bm.dir) hsort r v hv
    rw [hfin] at h2
    exact h2

theorem C5_witness :
    RoaringValid (RoaringM.mk [(0, {1, 5}), (2, {0})]) ∧
    (selectR (RoaringM.mk [(0, {1, 5}), (2, {0})]) 2 = none ↔
      cardR (RoaringM.mk [(0, {1, 5}), (2, {0})]) ≤ 2) :=
  ⟨by decide,
    (C5_select (RoaringM.mk [(0, {1, 5}), (2, {0})]) (by decide) 2).1⟩

/-- C6 counterexample: with the target bitmap holding {1} and an allocation
failure during copy assignment, the state surfaced with the exception is
the cleared bitmap — the target does not still contain the elements it held
before the call, refuting the claim as stated. -/
theorem C6_counterexample :
    assignCopy (RoaringM.mk [(0, {1})]) (RoaringM.mk []) false
      = Except.error (RoaringM.mk []) ∧
    elemsR (RoaringM.mk []) ≠ elemsR (RoaringM.mk [(0, {1})]) :=
  ⟨rfl, by decide⟩

/-- C6 amended: an allocation failure during a copy is surfaced to the
caller as an exception, and the copy constructor produces no object to
corrupt; but on copy assignment the target has already been cleared when
the failure surfaces, so it is left empty rather than with its prior
elements. -/
theorem C6_amended (t s : RoaringM) :
    copyCtor s false = Except.error () ∧
    copyCtor s true = Except.ok s ∧
    assignCopy t s false = Except.error (ra_clear t) ∧
    elemsR (ra_clear t) = ∅ ∧
    assignCopy t s true = Except.ok s :=
  ⟨rfl, rfl, rfl, rfl, rfl⟩

/-- C7: both lazy mixed XORs with a bitset destination (array–bitset and
run–bitset, including the aliased case dst = src_2) leave in the
destination exactly the symmetric difference of the inputs, and set the
cardinality field to the UNKNOWN marker instead of computing it; the result
stays a bitset container (the functions return a bitset unconditionally,
with no fit step even when the true cardinality is at most 4096). -/
theorem C7_lazy_xor (a : List Nat) (r : List Rle) (src2 dst1 dst2 : BitsetC)
    (al1 al2 : Bool) (hnd : a.Nodup) (hord : RunsOrdered r)
    (hal1 : al1 = true → dst1 = src2) (hal2 : al2 = true → dst2 = src2) :
    (array_bitset_container_lazy_xor a src2 dst1 al1).bits
      = symmDiff src2.bits a.toFinset ∧
    (array_bitset_container_lazy_xor a src2 dst1 al1).cardinality
      = BITSET_UNKNOWN_CARDINALITY ∧
    (run_bitset_container_lazy_xor r src2 dst2 al2).bits
      = symmDiff src2.bits (runSet r) ∧
    (run_bitset_container_lazy_xor r src2 dst2 al2).cardinality
      = BITSET_UNKNOWN_CARDINALITY := by
  have hd1 : (if al1 then dst1
      else BitsetC.mk src2.bits src2.cardinality).bits = src2.bits := by
    cases al1
    · rfl
    · rw [if_pos rfl, hal1 rfl]
  have hd2 : (if al2 then dst2
      else BitsetC.mk src2.bits src2.cardinality).bits = src2.bits := by
    cases al2
    · rfl
    · rw [if_pos rfl, hal2 rfl]
  refine ⟨?_, rfl, ?_, rfl⟩
  · show flipList _ a = _
    rw [hd1, flipList_eq_symmDiff src2.bits a hnd]
  · show List.foldl _ _ r = _
    rw [hd2]
    exact foldl_flipRange_eq_symmDiff r hord src2.bits

theorem C7_witness :
    ([1] : List Nat).Nodup ∧ RunsOrdered [(2, 1)] ∧
    (array_bitset_container_lazy_xor [1] { bits := {0, 1}, cardinality := 2 }
        { bits := ∅, cardinality := 0 } false).bits
      = symmDiff ({0, 1} : Finset Nat) ([1] : List Nat).toFinset :=
  ⟨by decide, by decide,
    (C7_lazy_xor [1] [(2, 1)] { bits := {0, 1}, cardinality := 2 }
      { bits := ∅, cardinality := 0 } { bits := ∅, cardinality := 0 }
      false false (by decide) (by decide)
      (fun h => absurd h (by decide)) (fun h => absurd h (by decide))).1⟩

/-- C8: for every sequence of valid input bitmaps, fastunion returns a
bitmap whose value set is the iterated union of all the inputs; fastunion
of no inputs is the empty bitmap and fastunion of a single input is that
very bitmap. -/
theorem C8_fastunion (l : List RoaringM) (h : ∀ bm ∈ l, RoaringValid bm) :
    elemsR (fastunionM l) = l.foldl (fun s bm => s ∪ elemsR bm) ∅ ∧
    fastunionM [] = RoaringM.mk [] ∧
    (∀ A : RoaringM, fastunionM [A] = A) := by
  refine ⟨?_, rfl, fun A => rfl⟩
  rcases l with _ | ⟨x, rest⟩
  · rfl
  · have h2 := foldl_orM_spec rest x (h x (List.mem_cons_self _ _))
      (fun bm hbm => h bm (List.mem_cons_of_mem _ hbm))
    rw [show fastunionM (x :: rest) = rest.foldl orM x from rfl, h2.2,
      List.foldl_cons, Finset.empty_union]

theorem C8_witness :
    (∀ bm ∈ [RoaringM.mk [(0, {1})], RoaringM.mk [(0, {2}), (1, {0})]],
      RoaringValid bm) ∧
    elemsR (fastunionM [RoaringM.mk [(0, {1})], RoaringM.mk [(0, {2}), (1, {0})]])
      = [RoaringM.mk [(0, {1})], RoaringM.mk [(0, {2}), (1, {0})]].foldl
          (fun s bm => s ∪ elemsR bm) ∅ :=
  ⟨by decide,
    (C8_fastunion [RoaringM.mk [(0, {1})], RoaringM.mk [(0, {2}), (1, {0})]]
      (by decide)).1⟩

/-- C9: for every bitmap and every pair of bounds with `x ≥ y`, the empty
range is vacuously contained: `containsRange` returns true regardless of
the bitmap's contents. -/
theorem C9_containsRange_empty (bm : RoaringM) (x y : Nat) (h : y ≤ x) :
    containsRangeM bm x y = true := by
  simp only [containsRangeM, decide_eq_true_eq]
  intro z hz
  rw [Finset.mem_Ico] at hz
  omega

theorem C9_witness : (3 : Nat) ≤ 3 ∧ containsRangeM (RoaringM.mk []) 3 3 = true :=
  ⟨le_rfl, C9_containsRange_empty (RoaringM.mk []) 3 3 le_rfl⟩

/-- C10: on the empty bitmap, maximum returns 0 and minimum returns
`UINT32_MAX`; neither signals an error, and the sentinels coincide with the
answers on nonempty bitmaps whose maximum is genuinely 0 or whose minimum
is genuinely `UINT32_MAX`, so they are indistinguishable from those. -/
theorem C10_extrema_empty :
    maximumM (RoaringM.mk []) = 0 ∧
    minimumM (RoaringM.mk []) = 4294967295 ∧
    maximumM (RoaringM.mk [(0, {0})]) = 0 ∧
    (elemsR (RoaringM.mk [(0, {0})])).Nonempty ∧
    minimumM (RoaringM.mk [(65535, {65535})]) = 4294967295 ∧
    (elemsR (RoaringM.mk [(65535, {65535})])).Nonempty := by
  decide

end CRoaring

